import Mathlib

/-!
# Verification of the `protoc-gen-connect-vue` generator core

A shallow embedding of `src/generator.ts`: the schema descriptor data
model, the pagination classifier (`isPaginatedDeep`), the type resolver
(`processType`), the service view-model builder (`processService`) and the
render-pipeline entry point (`generateTs`), together with theorems about
the properties the design document states for them.

JavaScript string primitives used by the source (`startsWith`,
`replace` with a string pattern, `charAt(0).toLowerCase() + slice(1)`)
are modelled explicitly, since their semantics (in particular:
`replace` with a string pattern replaces only the *first* occurrence)
are load-bearing.
-/

namespace ConnectVue

/-! ## JavaScript string primitives -/

/-- Models `String.prototype.startsWith(pre)`. -/
def jsStartsWith (s pre : String) : Bool :=
  pre.data.isPrefixOf s.data

/-- Removes the first occurrence of `pat` from `l`
(the list-of-characters core of `String.prototype.replace(pat, "")`,
which substitutes only the first occurrence of a string pattern). -/
def removeFirstL (pat : List Char) : List Char → List Char
  | [] => []
  | c :: cs =>
    if pat.isPrefixOf (c :: cs) then (c :: cs).drop pat.length
    else c :: removeFirstL pat cs

/-- Models `s.replace(pat, "")`: JavaScript `replace` with a string
pattern removes only the **first** occurrence of `pat`. -/
def jsReplaceEmpty (s pat : String) : String :=
  String.mk (removeFirstL pat.data s.data)

/-- Models `String.prototype.toLowerCase()` (character-wise lowercasing;
all identifiers involved are ASCII). -/
def jsToLowerCase (s : String) : String :=
  String.mk (s.data.map Char.toLower)

/-- Models `method.name.charAt(0).toLowerCase() + method.name.slice(1)`. -/
def lowerFirst (s : String) : String :=
  match s.data with
  | [] => ""
  | c :: rest => String.mk (c.toLower :: rest)

/-! ## Schema descriptor data model

The plugin consumes an already-decoded descriptor tree
(`DescFile`, `DescService`, `DescMethod`, `DescMessage`, fields).
Message-type references may be cyclic, so a message-typed field stores
the `typeName` of its target and references are resolved through an
environment `Env` listing all messages of the schema; in the source the
field holds the `DescMessage` object directly. -/

structure Field where
  name : String
  fieldKind : String
  /-- `typeName` of the referenced message when `fieldKind = "message"`. -/
  message : Option String
  deriving DecidableEq, Repr

structure DescMessage where
  /-- Fully-qualified type name (`typeDesc.typeName`). -/
  typeName : String
  /-- Short name (`typeDesc.name`). -/
  name : String
  /-- Name of the defining file (`typeDesc.file.name`). -/
  fileName : String
  fields : List Field
  deriving DecidableEq, Repr

abbrev Env := List DescMessage

/-- Resolve a message-type reference through the environment. -/
def lookupMsg (env : Env) (tn : String) : Option DescMessage :=
  env.find? (fun m => m.typeName = tn)

structure DescMethod where
  name : String
  input : DescMessage
  output : DescMessage
  /-- `MethodKind`: Unary = 1, streaming variants = 2, 3, 4. -/
  methodKind : Nat
  deriving DecidableEq, Repr

structure DescService where
  name : String
  /-- `service.file.name`. -/
  fileName : String
  methods : List DescMethod
  deriving DecidableEq, Repr

structure DescFile where
  name : String
  services : List DescService
  deriving DecidableEq, Repr

/-! ## Resource naming heuristic (`processService`, lines 140–156) -/

def mutationVerbs : List String :=
  ["Create", "Update", "Delete", "Remove", "Patch", "Post", "Set", "Add"]

/-- The verb loop and the `ListAll` special case of `processService`:
`let resource = method.name; mutationVerbs.forEach(verb => { if
(method.name.startsWith(verb)) resource = method.name.replace(verb, "");
}); if (method.name.startsWith("ListAll")) resource =
method.name.replace("ListAll", "");` -/
def deriveResource (methodName : String) : String :=
  let r := mutationVerbs.foldl
    (fun resource verb =>
      if jsStartsWith methodName verb then jsReplaceEmpty methodName verb
      else resource)
    methodName
  if jsStartsWith methodName "ListAll" then jsReplaceEmpty methodName "ListAll"
  else r

/-- `isMutation`: membership test only, no removal. -/
def isMutation (methodName : String) : Bool :=
  mutationVerbs.any (fun verb => jsStartsWith methodName verb)

/-! ## Pagination classifier (`isPaginatedDeep`, lines 48–71)

The source mutates one shared `Set` of visited type names across all
recursive branches; here the visited list is threaded explicitly, and
the recursive call `isPaginatedDeep(field.message, visited)` of the
source is inlined into the field loop `visitFields` (visited-check,
then exploration of the referenced message's fields), so that the
function returns the updated visited list to its caller exactly as the
mutation makes it visible there.  The subtype on the second component
records that the visited list only ever grows, which also bounds the
recursion: each exploration step adds an unvisited environment type
name. -/

def pagingKeys : List String :=
  ["page", "offset", "cursor", "limit", "pagesize", "pagenumber"]

/-- Number of schema type names not yet visited: the termination
measure of the classifier. -/
def unvisited (env : Env) (visited : List String) : Nat :=
  ((env.map (fun m => m.typeName)).toFinset \ visited.toFinset).card

/-- The field loop of `isPaginatedDeep` with the recursive call inlined:
for each field in declaration order, first the keyword test on the
lower-cased field name (immediate `true`), then, for a message-typed
field, the visited-check and recursive exploration of the referenced
message.  Returns the classification together with the grown visited
list (the source mutates the one shared `Set`). -/
def visitFields (env : Env) :
    (fields : List Field) → (visited : List String) →
      Bool × { v : List String // visited ⊆ v }
  | [], visited => (false, ⟨visited, fun _ h => h⟩)
  | f :: rest, visited =>
    if pagingKeys.contains (jsToLowerCase f.name) then
      (true, ⟨visited, fun _ h => h⟩)
    else if f.fieldKind = "message" then
      match hm : f.message.bind (lookupMsg env) with
      | some m =>
        if hv : visited.contains m.typeName then
          visitFields env rest visited
        else
          let r := visitFields env m.fields (m.typeName :: visited)
          if r.1 then
            (true, ⟨r.2.val, fun _ h => r.2.property (List.mem_cons_of_mem _ h)⟩)
          else
            let s := visitFields env rest r.2.val
            (s.1, ⟨s.2.val, fun _ h =>
              s.2.property (r.2.property (List.mem_cons_of_mem _ h))⟩)
      | none => visitFields env rest visited
    else visitFields env rest visited
termination_by fields visited => (unvisited env visited, fields.length)
decreasing_by
  · exact Prod.Lex.right _ (by simp only [List.length_cons]; omega)
  · apply Prod.Lex.left
    have hmem : m ∈ env := by
      rcases Option.bind_eq_some.mp hm with ⟨a, _, hfind⟩
      exact List.mem_of_find?_eq_some hfind
    have hnv : m.typeName ∉ visited := by simpa using hv
    apply Finset.card_lt_card
    rw [Finset.ssubset_def]
    constructor
    · apply Finset.sdiff_subset_sdiff (le_refl _)
      intro x hx
      exact List.mem_toFinset.mpr (List.mem_cons_of_mem _ (List.mem_toFinset.mp hx))
    · intro hsub
      have h1 : m.typeName ∈
          (env.map (fun m => m.typeName)).toFinset \ visited.toFinset := by
        rw [Finset.mem_sdiff]
        refine ⟨List.mem_toFinset.mpr (List.mem_map_of_mem _ hmem), fun hc => hnv ?_⟩
        exact List.mem_toFinset.mp hc
      have h2 := hsub h1
      rw [Finset.mem_sdiff] at h2
      exact h2.2 (List.mem_toFinset.mpr (List.mem_cons_self _ _))
  · have hle : unvisited env r.2.val ≤ unvisited env visited := by
      apply Finset.card_le_card
      apply Finset.sdiff_subset_sdiff (le_refl _)
      intro x hx
      refine List.mem_toFinset.mpr
        (r.2.property (List.mem_cons_of_mem _ (List.mem_toFinset.mp hx)))
    rcases lt_or_eq_of_le hle with hlt | heq
    · exact Prod.Lex.left _ _ hlt
    · rw [heq]
      exact Prod.Lex.right _ (by simp only [List.length_cons]; omega)
  · exact Prod.Lex.right _ (by simp only [List.length_cons]; omega)
  · exact Prod.Lex.right _ (by simp only [List.length_cons]; omega)

/-- `isPaginatedDeep(message, visited = new Set())`: `false` when the
message's type name is already visited, otherwise mark it visited and
scan its fields.  The default argument models the fresh empty set of
each top-level call. -/
def isPaginatedDeep (env : Env) (message : DescMessage)
    (visited : List String := []) : Bool :=
  if visited.contains message.typeName then false
  else (visitFields env message.fields (message.typeName :: visited)).1

/-! ## Reference graph of messages (for stating cycle safety) -/

/-- One reference step: `a` has a message-typed field whose reference
resolves (through `env`) to `b`. -/
def RefersTo (env : Env) (a b : DescMessage) : Prop :=
  ∃ f ∈ a.fields, f.fieldKind = "message" ∧ f.message.bind (lookupMsg env) = some b

/-- `b` belongs to the reference graph of `a` (is reachable from `a`). -/
def Reaches (env : Env) (a b : DescMessage) : Prop :=
  Relation.ReflTransGen (RefersTo env) a b

/-- No field name of `m` lower-cases to a pagination keyword. -/
def noKeywordFields (m : DescMessage) : Prop :=
  ∀ f ∈ m.fields, jsToLowerCase f.name ∉ pagingKeys

instance noKeywordFieldsDecidable (m : DescMessage) : Decidable (noKeywordFields m) := by
  unfold noKeywordFields
  infer_instance

/-! ## Known-type table and path computation (`processType`, lines 18–22, 76–106) -/

def KNOWN_TYPES : List (String × String) :=
  [("google.protobuf.Empty", "Empty"),
   ("google.protobuf.Timestamp", "Timestamp"),
   ("google.protobuf.Duration", "Duration")]

/-- `KNOWN_TYPES[fullTypeName]` (the mapped names are all truthy). -/
def knownTypeLookup (tn : String) : Option String :=
  (KNOWN_TYPES.find? (fun p => p.1 = tn)).map (fun p => p.2)

/-- Split a character list at a separator. -/
def splitChar (sep : Char) : List Char → List (List Char)
  | [] => [[]]
  | c :: cs =>
    match splitChar sep cs with
    | [] => if c = sep then [[], []] else [[c]]
    | h :: t => if c = sep then [] :: h :: t else (c :: h) :: t

def splitSlash (s : String) : List String :=
  (splitChar (Char.ofNat 47) s.data).map String.mk

/-- Models POSIX `path.dirname` on the relative, `..`-free file names
descriptors carry. -/
def pathDirname (p : String) : String :=
  let parts := splitSlash p
  if parts.length ≤ 1 then "." else String.intercalate "/" parts.dropLast

/-- Models POSIX `path.basename(p, ext)`. -/
def pathBasename (p ext : String) : String :=
  let base := (splitSlash p).getLastD p
  if base.endsWith ext ∧ base ≠ ext then
    String.mk (base.data.take (base.data.length - ext.data.length))
  else base

/-- Drop `.` and empty segments (the normalisation `path.relative`
performs on the relative, `..`-free inputs at hand). -/
def normalizeSegs (segs : List String) : List String :=
  segs.filter (fun s => s ≠ "." ∧ s ≠ "")

def countCommonPrefix : List String → List String → Nat
  | a :: as, b :: bs => if a = b then countCommonPrefix as bs + 1 else 0
  | _, _ => 0

/-- Models POSIX `path.relative(from, to)` for two relative, `..`-free
directory paths. -/
def pathRelative (f t : String) : String :=
  let fs := normalizeSegs (splitSlash f)
  let ts := normalizeSegs (splitSlash t)
  let common := countCommonPrefix fs ts
  String.intercalate "/"
    (List.replicate (fs.length - common) ".." ++ ts.drop common)

/-! ## Import accumulator and type resolver -/

/-- The three import buckets; JavaScript `Set` and `Map` preserve
insertion order, modelled by lists with membership-guarded append. -/
structure Accumulator where
  wktImports : List String
  localImports : List String
  externalImports : List (String × List String)
  deriving DecidableEq, Repr

/-- `Set.prototype.add`: no duplicate entries, insertion order kept. -/
def setAdd (s : List String) (x : String) : List String :=
  if x ∈ s then s else s ++ [x]

/-- `if (!map.has(k)) map.set(k, new Set()); map.get(k)!.add(v)`. -/
def mapGetAdd (m : List (String × List String)) (k v : String) :
    List (String × List String) :=
  if m.any (fun p => p.1 = k) then
    m.map (fun p => if p.1 = k then (p.1, setAdd p.2 v) else p)
  else m ++ [(k, [v])]

/-- `processType`: resolve a type name and record the import it needs.
Returns the base name together with the updated accumulator (the source
mutates the three buckets in place). -/
def processType (typeDesc : DescMessage) (serviceFileName : String)
    (acc : Accumulator) : String × Accumulator :=
  let fullTypeName := typeDesc.typeName
  let baseName := typeDesc.name
  match knownTypeLookup fullTypeName with
  | some mapped => (mapped, { acc with wktImports := setAdd acc.wktImports mapped })
  | none =>
    if typeDesc.fileName = serviceFileName then
      (baseName, { acc with localImports := setAdd acc.localImports baseName })
    else
      let importPath := "./gen/" ++
        pathRelative (pathDirname serviceFileName) (pathDirname typeDesc.fileName) ++
        "/" ++ pathBasename typeDesc.fileName ".proto" ++ "_pb"
      (baseName,
        { acc with externalImports := mapGetAdd acc.externalImports importPath baseName })

/-! ## Method classifier and service view-model builder
(`processService`, lines 111–192) -/

def METHOD_KIND_UNARY : Nat := 1

structure RpcRecord where
  functionName : String
  hookName : String
  queryDefinitionName : String
  resource : String
  inputType : String
  outputType : String
  isQuery : Bool
  isPaginated : Bool
  deriving DecidableEq, Repr

/-- The per-method record pushed onto `rpcs`. -/
def mkRpc (env : Env) (method : DescMethod)
    (inputBaseName outputBaseName : String) : RpcRecord :=
  let camelName := lowerFirst method.name
  let isUnary := method.methodKind == METHOD_KIND_UNARY
  { functionName := camelName
    hookName := "use" ++ method.name
    queryDefinitionName := camelName
    resource := deriveResource method.name
    inputType := inputBaseName
    outputType := outputBaseName
    isQuery := isUnary && !(isMutation method.name)
    isPaginated := isPaginatedDeep env method.input && isUnary && !(isMutation method.name) }

/-- One iteration of the method loop: resolve input and output types
through the shared accumulator, then build the record. -/
def processMethod (env : Env) (serviceFileName : String) (acc : Accumulator)
    (method : DescMethod) : Accumulator × RpcRecord :=
  let p1 := processType method.input serviceFileName acc
  let p2 := processType method.output serviceFileName p1.2
  (p2.2, mkRpc env method p1.1 p2.1)

structure ExternalImportView where
  path : String
  types : List String
  deriving DecidableEq, Repr

structure ViewData where
  serviceName : String
  protoPbFile : String
  connectQueryFile : String
  rpcs : List RpcRecord
  wktImports : List String
  localImports : List String
  externalImports : List ExternalImportView
  deriving DecidableEq, Repr

/-- `processService`: iterate the methods in declaration order with one
shared accumulator, then flatten the buckets. -/
def processService (env : Env) (service : DescService)
    (protoPbFile connectQueryFile : String) : ViewData :=
  let st := service.methods.foldl
    (fun st method =>
      let p := processMethod env service.fileName st.1 method
      (p.1, st.2 ++ [p.2]))
    ((⟨[], [], []⟩ : Accumulator), ([] : List RpcRecord))
  { serviceName := service.name
    protoPbFile := protoPbFile
    connectQueryFile := connectQueryFile
    rpcs := st.2
    wktImports := st.1.wktImports
    localImports := st.1.localImports
    externalImports := st.1.externalImports.map (fun p => ⟨p.1, p.2⟩) }

/-! ## Render pipeline (`generateTs`, lines 194–216)

Template rendering is an external collaborator (`Mustache.render` is
consumed as a pure function), so an output unit records which named
file is generated, which template it is rendered from, the view model
passed (or `none` for the literal empty view `{}`), and the named
sub-templates supplied. -/

inductive TemplateId
  | client
  | api
  | index
  | rpc
  deriving DecidableEq, Repr

structure OutputUnit where
  fileName : String
  template : TemplateId
  viewData : Option ViewData
  partials : List (String × TemplateId)
  deriving DecidableEq, Repr

/-- `generateTs(schema)`: take the first service across all files
(`schema.files.flatMap(f => f.services)[0]`); when none exists emit
nothing (plain `return`); otherwise render `client.ts` and `api.ts`
against the service's view model (the latter with the `rpc` partial)
and `index.ts` against the empty view model. -/
def generateTs (env : Env) (files : List DescFile) : List OutputUnit :=
  match (files.flatMap (fun f => f.services)).head? with
  | none => []
  | some firstService =>
    let protoFileStem := jsReplaceEmpty firstService.fileName ".proto"
    let viewData := processService env firstService (protoFileStem ++ "_pb")
      (protoFileStem ++ "-" ++ firstService.name ++ "_connectquery")
    [{ fileName := "client.ts", template := TemplateId.client,
       viewData := some viewData, partials := [] },
     { fileName := "api.ts", template := TemplateId.api,
       viewData := some viewData, partials := [("rpc", TemplateId.rpc)] },
     { fileName := "index.ts", template := TemplateId.index,
       viewData := none, partials := [] }]

/-! ## Spec-side definition for the resource-naming refinement check -/

/-- Structural-fuel worker for `specRemoveEveryOccurrence` (one unit of
fuel per consumed character; `s.length` fuel is always enough). -/
def removeAllAux : Nat → List Char → List Char → List Char
  | 0, _, l => l
  | _ + 1, _, [] => []
  | n + 1, pat, c :: cs =>
    if pat ≠ [] ∧ pat.isPrefixOf (c :: cs) then
      removeAllAux n pat ((c :: cs).drop pat.length)
    else c :: removeAllAux n pat cs

/-- The specification's words for the verb-removal step: `methodName`
with **every occurrence** of the verb substring removed (not just the
prefix).  Stated for comparison with `deriveResource`, which models the
source. -/
def specRemoveEveryOccurrence (s pat : String) : String :=
  String.mk (removeAllAux s.data.length pat.data s.data)

/-! ## Concrete schema fragments used as witnesses -/

/-- A directly self-referencing message with no pagination keyword. -/
def msgSelfLoop : DescMessage :=
  { typeName := "acme.Node", name := "Node", fileName := "acme.proto",
    fields := [{ name := "next", fieldKind := "message", message := some "acme.Node" }] }

/-- Two messages referencing each other (a transitive cycle), no
pagination keywords anywhere. -/
def msgCycA : DescMessage :=
  { typeName := "acme.A", name := "A", fileName := "acme.proto",
    fields := [{ name := "toB", fieldKind := "message", message := some "acme.B" }] }

def msgCycB : DescMessage :=
  { typeName := "acme.B", name := "B", fileName := "acme.proto",
    fields := [{ name := "toA", fieldKind := "message", message := some "acme.A" }] }

def envCyc : Env := [msgCycA, msgCycB, msgSelfLoop]

/-- A message that classifies as paginated on its own. -/
def msgPage : DescMessage :=
  { typeName := "pg.P", name := "P", fileName := "pg.proto",
    fields := [{ name := "page", fieldKind := "scalar", message := none }] }

def envPage : Env := [msgPage]

/-- A message-typed field referencing `msgPage`. -/
def fldRefPage : Field :=
  { name := "data", fieldKind := "message", message := some "pg.P" }

def msgEmptyIn : DescMessage :=
  { typeName := "tickets.ListReq", name := "ListReq", fileName := "tickets.proto",
    fields := [] }

def msgTicket : DescMessage :=
  { typeName := "tickets.Ticket", name := "Ticket", fileName := "tickets.proto",
    fields := [] }

def methodCreate : DescMethod :=
  { name := "CreateTicket", input := msgTicket, output := msgTicket, methodKind := 1 }

def methodWatch : DescMethod :=
  { name := "WatchTickets", input := msgEmptyIn, output := msgTicket, methodKind := 2 }

def svcTickets : DescService :=
  { name := "TicketService", fileName := "tickets.proto",
    methods := [methodCreate, methodWatch] }

def svcSecond : DescService :=
  { name := "OtherService", fileName := "other.proto", methods := [] }

def fileTickets : DescFile :=
  { name := "tickets.proto", services := [svcTickets] }

def fileSecond : DescFile :=
  { name := "other.proto", services := [svcSecond] }

def envTickets : Env := [msgEmptyIn, msgTicket]

/-! ### Small-step characterisation of the field loop

One lemma per branch of the loop body; together they determine
`visitFields` completely and serve as evaluation rules on concrete
schemas. -/

theorem visitFields_nil (env : Env) (v : List String) :
    visitFields env [] v = (false, ⟨v, fun _ h => h⟩) := by
  rw [visitFields]

theorem visitFields_keyword (env : Env) (f : Field) (rest : List Field)
    (v : List String) (h : jsToLowerCase f.name ∈ pagingKeys) :
    visitFields env (f :: rest) v = (true, ⟨v, fun _ h => h⟩) := by
  rw [visitFields,
    if_pos (show pagingKeys.contains (jsToLowerCase f.name) = true by simpa using h)]

theorem visitFields_scalar (env : Env) (f : Field) (rest : List Field)
    (v : List String) (h1 : jsToLowerCase f.name ∉ pagingKeys)
    (h2 : f.fieldKind ≠ "message") :
    visitFields env (f :: rest) v = visitFields env rest v := by
  rw [visitFields, if_neg (by simpa using h1), if_neg h2]

theorem visitFields_msg_none (env : Env) (f : Field) (rest : List Field)
    (v : List String) (h1 : jsToLowerCase f.name ∉ pagingKeys)
    (h2 : f.fieldKind = "message")
    (h3 : f.message.bind (lookupMsg env) = none) :
    visitFields env (f :: rest) v = visitFields env rest v := by
  rw [visitFields, if_neg (by simpa using h1), if_pos h2]
  split
  · rename_i m heq
    rw [h3] at heq
    exact Option.noConfusion heq
  · rfl

theorem visitFields_msg_visited (env : Env) (f : Field) (rest : List Field)
    (v : List String) (m : DescMessage)
    (h1 : jsToLowerCase f.name ∉ pagingKeys)
    (h2 : f.fieldKind = "message")
    (h3 : f.message.bind (lookupMsg env) = some m)
    (h4 : m.typeName ∈ v) :
    visitFields env (f :: rest) v = visitFields env rest v := by
  rw [visitFields, if_neg (by simpa using h1), if_pos h2]
  split
  · rename_i m' heq
    rw [h3] at heq
    injection heq with hm'
    subst hm'
    rw [dif_pos (show v.contains m.typeName = true by simpa using h4)]
  · rfl

theorem visitFields_msg_true (env : Env) (f : Field) (rest : List Field)
    (v : List String) (m : DescMessage)
    (h1 : jsToLowerCase f.name ∉ pagingKeys)
    (h2 : f.fieldKind = "message")
    (h3 : f.message.bind (lookupMsg env) = some m)
    (h4 : m.typeName ∉ v)
    (h5 : (visitFields env m.fields (m.typeName :: v)).1 = true) :
    (visitFields env (f :: rest) v).1 = true ∧
      (visitFields env (f :: rest) v).2.val =
        (visitFields env m.fields (m.typeName :: v)).2.val := by
  rw [visitFields, if_neg (by simpa using h1), if_pos h2]
  split
  · rename_i m' heq
    rw [h3] at heq
    injection heq with hm'
    subst hm'
    rw [dif_neg (show ¬ v.contains m.typeName = true by simpa using h4)]
    rw [if_pos h5]
    exact ⟨rfl, rfl⟩
  · rename_i heq
    rw [heq] at h3
    exact Option.noConfusion h3

theorem visitFields_msg_false (env : Env) (f : Field) (rest : List Field)
    (v : List String) (m : DescMessage)
    (h1 : jsToLowerCase f.name ∉ pagingKeys)
    (h2 : f.fieldKind = "message")
    (h3 : f.message.bind (lookupMsg env) = some m)
    (h4 : m.typeName ∉ v)
    (h5 : (visitFields env m.fields (m.typeName :: v)).1 = false) :
    (visitFields env (f :: rest) v).1 =
        (visitFields env rest (visitFields env m.fields (m.typeName :: v)).2.val).1 ∧
      (visitFields env (f :: rest) v).2.val =
        (visitFields env rest (visitFields env m.fields (m.typeName :: v)).2.val).2.val := by
  rw [visitFields, if_neg (by simpa using h1), if_pos h2]
  split
  · rename_i m' heq
    rw [h3] at heq
    injection heq with hm'
    subst hm'
    rw [dif_neg (show ¬ v.contains m.typeName = true by simpa using h4)]
    rw [if_neg (by simp [h5])]
    exact ⟨rfl, rfl⟩
  · rename_i heq
    rw [heq] at h3
    exact Option.noConfusion h3

/-! ### Cycle safety of the classifier -/

/-- Anything reachable from `root` is keyword-free as soon as `root`
and every message of the environment are: references always resolve
into the environment. -/
theorem reaches_noKeyword_of_all (env : Env) (root : DescMessage)
    (hroot : noKeywordFields root)
    (henv : ∀ m ∈ env, noKeywordFields m) :
    ∀ m, Reaches env root m → noKeywordFields m := by
  intro m hm
  induction hm with
  | refl => exact hroot
  | tail _ step _ =>
    rcases step with ⟨f, _, _, hbind⟩
    rcases Option.bind_eq_some.mp hbind with ⟨a, _, hfind⟩
    exact henv _ (List.mem_of_find?_eq_some hfind)

/-- When every message in the reference graph of the scan is
keyword-free, the field loop returns `false` — on any visited list, so
in particular on cyclic graphs, where the visited-set guard is what
bounds the recursion. -/
theorem visitFields_false_of_noKeyword (env : Env) (root : DescMessage)
    (hreach : ∀ m, Reaches env root m → noKeywordFields m)
    (fields : List Field) (visited : List String)
    (h1 : ∀ f ∈ fields, jsToLowerCase f.name ∉ pagingKeys)
    (h2 : ∀ f ∈ fields, ∀ m, f.fieldKind = "message" →
        f.message.bind (lookupMsg env) = some m → Reaches env root m) :
    (visitFields env fields visited).1 = false := by
  induction fields, visited using visitFields.induct env with
  | case1 v =>
    rw [visitFields_nil]
  | case2 f rest v hkw =>
    exact absurd (by simpa using hkw) (h1 f (List.mem_cons_self _ _))
  | case3 f rest v hnk hfk m hbind hvis ih =>
    rw [visitFields_msg_visited env f rest v m (by simpa using hnk) hfk hbind
      (by simpa using hvis)]
    exact ih (fun g hg => h1 g (List.mem_cons_of_mem _ hg))
      (fun g hg => h2 g (List.mem_cons_of_mem _ hg))
  | case4 f rest v hnk hfk m hbind hnvis r hr1 ih =>
    have hr1x : (visitFields env m.fields (m.typeName :: v)).1 = true := hr1
    have hr : Reaches env root m := h2 f (List.mem_cons_self _ _) m hfk hbind
    have hfalse : (visitFields env m.fields (m.typeName :: v)).1 = false :=
      ih (fun g hg => hreach m hr g hg)
        (fun g hg m' hfk' hbind' => hr.tail ⟨g, hg, hfk', hbind'⟩)
    rw [hfalse] at hr1x
    exact absurd hr1x (by simp)
  | case5 f rest v hnk hfk m hbind hnvis r hr1 ihm ihr ihr2 =>
    have hr1x : ¬ (visitFields env m.fields (m.typeName :: v)).1 = true := hr1
    have hr1f : (visitFields env m.fields (m.typeName :: v)).1 = false := by
      cases hq : (visitFields env m.fields (m.typeName :: v)).1
      · rfl
      · exact absurd hq hr1x
    have hstep := visitFields_msg_false env f rest v m (by simpa using hnk) hfk hbind
      (by simpa using hnvis) hr1f
    rw [hstep.1]
    exact ihr2 (fun g hg => h1 g (List.mem_cons_of_mem _ hg))
      (fun g hg => h2 g (List.mem_cons_of_mem _ hg))
  | case6 f rest v hnk hfk hbind ih =>
    rw [visitFields_msg_none env f rest v (by simpa using hnk) hfk hbind]
    exact ih (fun g hg => h1 g (List.mem_cons_of_mem _ hg))
      (fun g hg => h2 g (List.mem_cons_of_mem _ hg))
  | case7 f rest v hnk hfk ih =>
    rw [visitFields_scalar env f rest v (by simpa using hnk) hfk]
    exact ih (fun g hg => h1 g (List.mem_cons_of_mem _ hg))
      (fun g hg => h2 g (List.mem_cons_of_mem _ hg))

/-! ## Claim theorems: pagination classifier -/

/-- **C3** — For every message whose reference graph (cyclic or not)
contains no field whose lower-cased name is a pagination keyword, the
classifier returns `false`; termination on cyclic graphs is built into
the definition of `visitFields` (kernel-accepted decreasing measure:
the number of unvisited environment type names).  Also: the base case
returns `false` whenever the type name is already in the visited set,
and the top-level call runs with the empty visited set (the default
argument). -/
theorem pagination_cycle_safe (env : Env) (msg : DescMessage) (visited : List String)
    (hkw : ∀ m, Reaches env msg m → noKeywordFields m) :
    isPaginatedDeep env msg = false ∧
      (msg.typeName ∈ visited → isPaginatedDeep env msg visited = false) ∧
      isPaginatedDeep env msg = isPaginatedDeep env msg [] := by
  refine ⟨?_, ?_, rfl⟩
  · exact visitFields_false_of_noKeyword env msg hkw msg.fields [msg.typeName]
      (hkw msg Relation.ReflTransGen.refl)
      (fun f hf m hfk hbind => Relation.ReflTransGen.single ⟨f, hf, hfk, hbind⟩)
  · intro hv
    unfold isPaginatedDeep
    rw [if_pos (show visited.contains msg.typeName = true by simpa using hv)]

/-- Witness for C3 on a concrete cyclic schema: `acme.A → acme.B →
acme.A`, plus a directly self-referencing message, no keywords. -/
theorem pagination_cycle_safe_witness :
    isPaginatedDeep envCyc msgCycA = false ∧
      isPaginatedDeep envCyc msgCycA ["acme.A"] = false :=
  have h := pagination_cycle_safe envCyc msgCycA ["acme.A"]
    (reaches_noKeyword_of_all envCyc msgCycA (by decide) (by decide))
  ⟨h.1, h.2.1 (by decide)⟩

/-- **C7** — The field loop inspects fields in declaration order:
immediate `true` on the first field whose lower-cased name is in the
keyword list (no further fields inspected — `rest` is arbitrary in the
first conjunct), `true` propagated from a message-typed field whose
referenced message classifies as paginated, continuation otherwise, and
`false` once the fields are exhausted. -/
theorem classifier_field_order (env : Env) (f : Field) (rest : List Field)
    (v : List String) (m : DescMessage) :
    (jsToLowerCase f.name ∈ pagingKeys → (visitFields env (f :: rest) v).1 = true) ∧
    (jsToLowerCase f.name ∉ pagingKeys → f.fieldKind = "message" →
      f.message.bind (lookupMsg env) = some m → m.typeName ∉ v →
      (visitFields env m.fields (m.typeName :: v)).1 = true →
      (visitFields env (f :: rest) v).1 = true) ∧
    (jsToLowerCase f.name ∉ pagingKeys → f.fieldKind = "message" →
      f.message.bind (lookupMsg env) = some m → m.typeName ∉ v →
      (visitFields env m.fields (m.typeName :: v)).1 = false →
      (visitFields env (f :: rest) v).1 =
        (visitFields env rest (visitFields env m.fields (m.typeName :: v)).2.val).1) ∧
    (jsToLowerCase f.name ∉ pagingKeys → f.fieldKind ≠ "message" →
      (visitFields env (f :: rest) v).1 = (visitFields env rest v).1) ∧
    (visitFields env [] v).1 = false := by
  refine ⟨?_, ?_, ?_, ?_, ?_⟩
  · intro h
    rw [visitFields_keyword env f rest v h]
  · intro h1 h2 h3 h4 h5
    exact (visitFields_msg_true env f rest v m h1 h2 h3 h4 h5).1
  · intro h1 h2 h3 h4 h5
    exact (visitFields_msg_false env f rest v m h1 h2 h3 h4 h5).1
  · intro h1 h2
    rw [visitFields_scalar env f rest v h1 h2]
  · rw [visitFields_nil]

/-- Witness for C7: a field named `page` classifies immediately. -/
theorem classifier_field_order_witness :
    (visitFields envPage msgPage.fields []).1 = true :=
  (classifier_field_order envPage ⟨"page", "scalar", none⟩ [] [] msgPage).1 (by decide)

/-- **C10** — One shared visited set per top-level call: a reference to
an already-visited type name is skipped outright (so each type name is
explored at most once), the sibling continuation receives exactly the
visited set grown by the earlier branch (sharing across branches, not
per call chain), and the visited set only ever grows. -/
theorem visited_set_shared (env : Env) (f : Field) (rest fields : List Field)
    (v : List String) (m : DescMessage) :
    (jsToLowerCase f.name ∉ pagingKeys → f.fieldKind = "message" →
      f.message.bind (lookupMsg env) = some m → m.typeName ∈ v →
      visitFields env (f :: rest) v = visitFields env rest v) ∧
    (jsToLowerCase f.name ∉ pagingKeys → f.fieldKind = "message" →
      f.message.bind (lookupMsg env) = some m → m.typeName ∉ v →
      (visitFields env m.fields (m.typeName :: v)).1 = false →
      (visitFields env (f :: rest) v).2.val =
        (visitFields env rest (visitFields env m.fields (m.typeName :: v)).2.val).2.val) ∧
    v ⊆ (visitFields env fields v).2.val := by
  refine ⟨?_, ?_, (visitFields env fields v).2.property⟩
  · intro h1 h2 h3 h4
    exact visitFields_msg_visited env f rest v m h1 h2 h3 h4
  · intro h1 h2 h3 h4 h5
    exact (visitFields_msg_false env f rest v m h1 h2 h3 h4 h5).2

/-- Witness for C10: a reference to `pg.P` is skipped (contributes
`false`) when `pg.P` is already visited, although `pg.P` classifies as
paginated under a fresh visited set. -/
theorem visited_set_shared_witness :
    visitFields envPage [fldRefPage] ["pg.P"] = visitFields envPage [] ["pg.P"] ∧
      isPaginatedDeep envPage msgPage = true :=
  ⟨(visited_set_shared envPage fldRefPage [] [] ["pg.P"] msgPage).1
      (by decide) (by decide) (by decide) (by decide),
   by
    rw [show isPaginatedDeep envPage msgPage =
        (visitFields envPage
          [{ name := "page", fieldKind := "scalar", message := none }] ["pg.P"]).1
        from rfl,
      visitFields_keyword envPage _ _ _ (by decide)]⟩

/-! ## Claim theorems: resource naming heuristic -/

/-- A left fold that overwrites its state at every matching element
computes the image of the **last** matching element (or the default
when none matches). -/
theorem foldl_last_match {α β : Type} (P : α → Bool) (f : α → β) (d : β) (L : List α) :
    L.foldl (fun res v => if P v then f v else res) d =
      (((L.filter P).getLast?).map f).getD d := by
  induction L generalizing d with
  | nil => rfl
  | cons v vs ih =>
    rw [List.foldl_cons]
    by_cases h : P v = true
    · rw [if_pos h, ih (f v), List.filter_cons_of_pos h]
      cases hq : vs.filter P with
      | nil => simp
      | cons w ws =>
        rw [List.getLast?_cons_cons]
        obtain ⟨x, hx⟩ : ∃ x, (w :: ws).getLast? = some x :=
          ⟨(w :: ws).getLast (by simp), List.getLast?_eq_getLast _ (by simp)⟩
        rw [hx]
        rfl
    · rw [if_neg h, ih d, List.filter_cons_of_neg h]

theorem isPrefixOf_head_ne {a b : Char} {as bs l : List Char} (hne : ¬ a = b)
    (ha : List.isPrefixOf (a :: as) l = true) : List.isPrefixOf (b :: bs) l = false := by
  cases l with
  | nil => simp [List.isPrefixOf] at ha
  | cons c cs =>
    simp only [List.isPrefixOf, Bool.and_eq_true, beq_iff_eq] at ha
    simp only [List.isPrefixOf, Bool.and_eq_false_iff]
    left
    rw [ha.1] at hne
    simp [beq_eq_false_iff_ne]
    exact fun hbc => hne (hbc ▸ rfl)

theorem startsWith_head (name p : String) (c : Char) (hc : p.data.head? = some c)
    (h : jsStartsWith name p = true) : name.data.head? = some c := by
  unfold jsStartsWith at h
  cases hp : p.data with
  | nil => rw [hp] at hc; cases hc
  | cons a as =>
    rw [hp] at hc h
    injection hc with hac
    cases hn : name.data with
    | nil => rw [hn] at h; simp [List.isPrefixOf] at h
    | cons b bs =>
      rw [hn] at h
      simp only [List.isPrefixOf, Bool.and_eq_true, beq_iff_eq] at h
      rw [← hac, h.1]
      rfl

/-- A name that starts with one of the mutation verbs cannot also start
with `ListAll` (no verb begins with `L`), so the `ListAll` special case
never overrides a verb match. -/
theorem not_listall_of_verb (name v : String) (hv : v ∈ mutationVerbs)
    (h : jsStartsWith name v = true) : jsStartsWith name "ListAll" = false := by
  have hL : jsStartsWith name "ListAll" = true → False := by
    intro hLt
    have hb := startsWith_head name "ListAll" ('L') (by decide) hLt
    fin_cases hv
    · have ha := startsWith_head name "Create" ('C') (by decide) h
      rw [ha] at hb; injection hb with hb'; exact absurd hb' (by decide)
    · have ha := startsWith_head name "Update" ('U') (by decide) h
      rw [ha] at hb; injection hb with hb'; exact absurd hb' (by decide)
    · have ha := startsWith_head name "Delete" ('D') (by decide) h
      rw [ha] at hb; injection hb with hb'; exact absurd hb' (by decide)
    · have ha := startsWith_head name "Remove" ('R') (by decide) h
      rw [ha] at hb; injection hb with hb'; exact absurd hb' (by decide)
    · have ha := startsWith_head name "Patch" ('P') (by decide) h
      rw [ha] at hb; injection hb with hb'; exact absurd hb' (by decide)
    · have ha := startsWith_head name "Post" ('P') (by decide) h
      rw [ha] at hb; injection hb with hb'; exact absurd hb' (by decide)
    · have ha := startsWith_head name "Set" ('S') (by decide) h
      rw [ha] at hb; injection hb with hb'; exact absurd hb' (by decide)
    · have ha := startsWith_head name "Add" ('A') (by decide) h
      rw [ha] at hb; injection hb with hb'; exact absurd hb' (by decide)
  cases hq : jsStartsWith name "ListAll"
  · rfl
  · exact absurd (hL hq) (fun x => x)

/-- When `pat` is a prefix, removing its first occurrence is exactly
dropping the leading `pat.length` characters. -/
theorem removeFirstL_of_leading (pat l : List Char) (h : pat.isPrefixOf l = true) :
    removeFirstL pat l = l.drop pat.length := by
  cases l with
  | nil => simp [removeFirstL]
  | cons c cs =>
    simp only [removeFirstL]
    rw [if_pos h]

/-- **C1 (amended)** — For every method name matching at least one
mutation verb as a prefix, the derived resource is the method name with
the **first** occurrence of the verb removed — which, the verb being a
prefix, is exactly the leading prefix stripped — and the verb used is
the **last** matching one in iteration order (the loop does not
short-circuit; the `ListAll` case cannot fire on a verb-prefixed name). -/
theorem resource_verb_prefix_removal (name : String)
    (h : (mutationVerbs.filter (fun v => jsStartsWith name v)) ≠ []) :
    deriveResource name =
      jsReplaceEmpty name
        ((mutationVerbs.filter (fun v => jsStartsWith name v)).getLast h) ∧
    deriveResource name =
      String.mk (name.data.drop
        (((mutationVerbs.filter (fun v => jsStartsWith name v)).getLast h)).data.length) := by
  have hwmem : (mutationVerbs.filter (fun v => jsStartsWith name v)).getLast h ∈
      mutationVerbs.filter (fun v => jsStartsWith name v) := List.getLast_mem h
  have hwverb := (List.mem_filter.mp hwmem).1
  have hwstart := (List.mem_filter.mp hwmem).2
  have hnLA : jsStartsWith name "ListAll" = false :=
    not_listall_of_verb name _ hwverb hwstart
  have hlast := List.getLast?_eq_getLast
    (mutationVerbs.filter (fun v => jsStartsWith name v)) h
  have hfirst : deriveResource name =
      jsReplaceEmpty name
        ((mutationVerbs.filter (fun v => jsStartsWith name v)).getLast h) := by
    simp only [deriveResource]
    rw [if_neg (by simp [hnLA]), foldl_last_match, hlast]
    rfl
  refine ⟨hfirst, ?_⟩
  rw [hfirst]
  unfold jsReplaceEmpty
  rw [removeFirstL_of_leading _ _ hwstart]

/-- Witness for the amended C1 at `CreateTicket`. -/
theorem resource_verb_prefix_removal_witness :
    deriveResource "CreateTicket" =
      jsReplaceEmpty "CreateTicket"
        ((mutationVerbs.filter (fun v => jsStartsWith "CreateTicket" v)).getLast
          (by decide)) ∧
    deriveResource "CreateTicket" =
      String.mk ("CreateTicket".data.drop
        (((mutationVerbs.filter (fun v => jsStartsWith "CreateTicket" v)).getLast
          (by decide))).data.length) :=
  resource_verb_prefix_removal "CreateTicket" (by decide)

/-- **C1 (counterexample)** — `CreateCreateTicket` starts with the verb
`Create`, yet the implementation removes only the first occurrence
(`replace` with a string pattern): the derived resource is
`CreateTicket`, not the claim's every-occurrence result `Ticket`. -/
theorem resource_not_every_occurrence :
    jsStartsWith "CreateCreateTicket" "Create" = true ∧
    deriveResource "CreateCreateTicket" = "CreateTicket" ∧
    specRemoveEveryOccurrence "CreateCreateTicket" "Create" = "Ticket" ∧
    deriveResource "CreateCreateTicket" ≠
      specRemoveEveryOccurrence "CreateCreateTicket" "Create" :=
  ⟨by decide, by decide, by decide, by decide⟩

/-- **C8** — The four literal resource-derivation cases of the design
document, computed on the embedded heuristic. -/
theorem resource_literal_cases :
    deriveResource "CreateTicket" = "Ticket" ∧
    deriveResource "UpdateTicketStatus" = "TicketStatus" ∧
    deriveResource "ListAllTickets" = "Tickets" ∧
    deriveResource "GetTicket" = "GetTicket" :=
  ⟨by decide, by decide, by decide, by decide⟩

/-! ## Claim theorems: type resolver -/

theorem setAdd_idem (s : List String) (x : String) :
    setAdd (setAdd s x) x = setAdd s x := by
  by_cases h : x ∈ s
  · simp [setAdd, h]
  · simp [setAdd, h]

theorem mapGetAdd_idem (m : List (String × List String)) (k v : String) :
    mapGetAdd (mapGetAdd m k v) k v = mapGetAdd m k v := by
  by_cases h : m.any (fun p => p.1 = k) = true
  · unfold mapGetAdd
    rw [if_pos h]
    have hany : (m.map (fun p => if p.1 = k then (p.1, setAdd p.2 v) else p)).any
        (fun p => p.1 = k) = true := by
      rcases List.any_eq_true.mp h with ⟨p, hp, hpk⟩
      refine List.any_eq_true.mpr ⟨_, List.mem_map_of_mem _ hp, ?_⟩
      have hpk' : p.1 = k := by simpa using hpk
      simp [hpk']
    rw [if_pos hany, List.map_map]
    have : ∀ p ∈ m, ((fun p => if p.1 = k then (p.1, setAdd p.2 v) else p) ∘
        (fun p => if p.1 = k then (p.1, setAdd p.2 v) else p)) p =
        (fun p => if p.1 = k then (p.1, setAdd p.2 v) else p) p := by
      intro p _
      by_cases hq : p.1 = k
      · simp [Function.comp, hq, setAdd_idem]
      · simp [Function.comp, hq]
    exact List.map_congr_left this
  · unfold mapGetAdd
    rw [if_neg h]
    have hall : ∀ p ∈ m, ¬ (p.1 = k) := by
      intro p hp hpk
      exact h (List.any_eq_true.mpr ⟨p, hp, by simp [hpk]⟩)
    have hany2 : ((m ++ [(k, [v])]).any (fun p => p.1 = k)) = true :=
      List.any_eq_true.mpr ⟨(k, [v]), by simp, by simp⟩
    rw [if_pos hany2, List.map_append]
    have hm : m.map (fun p => if p.1 = k then (p.1, setAdd p.2 v) else p) = m := by
      have : ∀ p ∈ m, (if p.1 = k then (p.1, setAdd p.2 v) else p) = id p := by
        intro p hp
        rw [if_neg (hall p hp)]
        rfl
      rw [List.map_congr_left this, List.map_id]
    rw [hm]
    simp [setAdd]

/-- **C4** — Resolving the same type twice against the accumulator the
first resolution produced returns the same base name and leaves the
accumulator unchanged: no bucket receives a duplicate entry. -/
theorem type_resolution_idempotent (t : DescMessage) (serviceFileName : String)
    (acc : Accumulator) :
    (processType t serviceFileName (processType t serviceFileName acc).2).1
      = (processType t serviceFileName acc).1 ∧
    (processType t serviceFileName (processType t serviceFileName acc).2).2
      = (processType t serviceFileName acc).2 := by
  cases hk : knownTypeLookup t.typeName with
  | some mapped =>
    simp only [processType]
    rw [hk]
    simp [setAdd_idem]
  | none =>
    simp only [processType]
    rw [hk]
    by_cases hf : t.fileName = serviceFileName
    · simp [hf, setAdd_idem]
    · simp [hf, mapGetAdd_idem]

/-- Witness for C4 at a concrete local type and the empty accumulator. -/
theorem type_resolution_idempotent_witness :
    (processType msgTicket "tickets.proto"
        (processType msgTicket "tickets.proto" ⟨[], [], []⟩).2).2
      = (processType msgTicket "tickets.proto" ⟨[], [], []⟩).2 :=
  (type_resolution_idempotent msgTicket "tickets.proto" ⟨[], [], []⟩).2

/-- **C9** — A type whose fully-qualified name is in the known-type
table resolves to the table's mapped name and touches only the
well-known-import bucket, whatever file defines it (`t.fileName` and
`serviceFileName` are arbitrary). -/
theorem known_type_resolution (t : DescMessage) (serviceFileName : String)
    (acc : Accumulator) (mapped : String)
    (h : knownTypeLookup t.typeName = some mapped) :
    processType t serviceFileName acc =
      (mapped, { acc with wktImports := setAdd acc.wktImports mapped }) := by
  simp only [processType]
  rw [h]

/-- Witness for C9: the well-known empty-message type. -/
theorem known_type_resolution_witness :
    processType
      { typeName := "google.protobuf.Empty", name := "Empty",
        fileName := "wkt.proto", fields := [] }
      "tickets.proto" ⟨[], [], []⟩ = ("Empty", ⟨["Empty"], [], []⟩) := by
  rw [known_type_resolution _ _ _ "Empty" (by decide)]
  decide

/-! ## Claim theorems: method classifier and render pipeline -/

/-- The method loop appends one record per method, each built by
`mkRpc` from the method and the two resolved type names. -/
theorem processService_fold (env : Env) (sfn : String) :
    ∀ (methods : List DescMethod) (acc0 : Accumulator) (rs0 : List RpcRecord),
      ∃ zs, (methods.foldl (fun st method =>
          let p := processMethod env sfn st.1 method
          (p.1, st.2 ++ [p.2])) (acc0, rs0)).2 = rs0 ++ zs ∧
        List.Forall₂ (fun m r => ∃ iN oN, r = mkRpc env m iN oN) methods zs := by
  intro methods
  induction methods with
  | nil =>
    intro acc0 rs0
    exact ⟨[], by simp, List.Forall₂.nil⟩
  | cons mth rest ih =>
    intro acc0 rs0
    simp only [List.foldl_cons]
    rcases ih (processMethod env sfn acc0 mth).1
        (rs0 ++ [(processMethod env sfn acc0 mth).2]) with ⟨zs, hz, hf⟩
    refine ⟨(processMethod env sfn acc0 mth).2 :: zs, ?_, ?_⟩
    · rw [hz]
      simp
    · exact List.Forall₂.cons ⟨_, _, rfl⟩ hf

theorem mkRpc_classification (env : Env) (m : DescMethod) (iN oN : String) :
    (mkRpc env m iN oN).isQuery
        = ((m.methodKind == METHOD_KIND_UNARY) && !(isMutation m.name)) ∧
    (mkRpc env m iN oN).isPaginated
        = (isPaginatedDeep env m.input && (m.methodKind == METHOD_KIND_UNARY)
            && !(isMutation m.name)) ∧
    (m.methodKind ≠ METHOD_KIND_UNARY →
      (mkRpc env m iN oN).isQuery = false ∧
      (mkRpc env m iN oN).isPaginated = false) ∧
    (mkRpc env m iN oN).functionName = lowerFirst m.name ∧
    (mkRpc env m iN oN).hookName = "use" ++ m.name ∧
    (mkRpc env m iN oN).inputType = iN ∧
    (mkRpc env m iN oN).outputType = oN := by
  have hq : (mkRpc env m iN oN).isQuery
      = ((m.methodKind == METHOD_KIND_UNARY) && !(isMutation m.name)) := rfl
  have hp : (mkRpc env m iN oN).isPaginated
      = (isPaginatedDeep env m.input && (m.methodKind == METHOD_KIND_UNARY)
          && !(isMutation m.name)) := rfl
  refine ⟨hq, hp, ?_, rfl, rfl, rfl, rfl⟩
  intro hne
  have hk : (m.methodKind == METHOD_KIND_UNARY) = false := by
    simpa using hne
  rw [hq, hp, hk]
  simp

/-- **C6** — Pointwise over methods and their records (`Forall₂` also
pairs every method, unary or streaming, with exactly one record):
`isMutation` is the verb-prefix membership test; `isQuery` is unary AND
not mutation; `isPaginated` is the classifier on the input AND unary
AND not mutation; every non-unary method gets `isQuery = false`,
`isPaginated = false`, yet still a record with function and hook
names. -/
theorem method_classification (env : Env) (svc : DescService) (pb cq : String) :
    List.Forall₂ (fun (m : DescMethod) (r : RpcRecord) =>
        isMutation m.name = mutationVerbs.any (fun verb => jsStartsWith m.name verb) ∧
        r.isQuery = ((m.methodKind == METHOD_KIND_UNARY) && !(isMutation m.name)) ∧
        r.isPaginated = (isPaginatedDeep env m.input && (m.methodKind == METHOD_KIND_UNARY)
            && !(isMutation m.name)) ∧
        (m.methodKind ≠ METHOD_KIND_UNARY →
          r.isQuery = false ∧ r.isPaginated = false ∧
          r.functionName = lowerFirst m.name ∧ r.hookName = "use" ++ m.name))
      svc.methods (processService env svc pb cq).rpcs := by
  rcases processService_fold env svc.fileName svc.methods ⟨[], [], []⟩ [] with ⟨zs, hz, hf⟩
  have hrpcs : (processService env svc pb cq).rpcs = zs := by
    simp only [processService]
    rw [hz]
    simp
  rw [hrpcs]
  refine List.Forall₂.imp ?_ hf
  intro m r hmr
  rcases hmr with ⟨iN, oN, hr⟩
  subst hr
  rcases mkRpc_classification env m iN oN with ⟨hq, hp, hne, hfn, hhn, _, _⟩
  exact ⟨rfl, hq, hp, fun h => ⟨(hne h).1, (hne h).2, hfn, hhn⟩⟩

/-- Witness for C6 on a service with one mutation and one
server-streaming method. -/
theorem method_classification_witness :
    List.Forall₂ (fun (m : DescMethod) (r : RpcRecord) =>
        isMutation m.name = mutationVerbs.any (fun verb => jsStartsWith m.name verb) ∧
        r.isQuery = ((m.methodKind == METHOD_KIND_UNARY) && !(isMutation m.name)) ∧
        r.isPaginated = (isPaginatedDeep envTickets m.input && (m.methodKind == METHOD_KIND_UNARY)
            && !(isMutation m.name)) ∧
        (m.methodKind ≠ METHOD_KIND_UNARY →
          r.isQuery = false ∧ r.isPaginated = false ∧
          r.functionName = lowerFirst m.name ∧ r.hookName = "use" ++ m.name))
      svcTickets.methods
      (processService envTickets svcTickets "tickets_pb"
        "tickets-TicketService_connectquery").rpcs :=
  method_classification envTickets svcTickets "tickets_pb"
    "tickets-TicketService_connectquery"

/-- **C2 (counterexample)** — An invocation that finds a service
renders three output units (`client.ts`, `api.ts`, `index.ts`), not
four: the fourth template (`rpc`) is a sub-template of the `api` unit,
not an output of its own. -/
theorem render_three_not_four :
    (generateTs envTickets [fileTickets]).length = 3 ∧ (3 : Nat) ≠ 4 := by
  constructor
  · rfl
  · decide

/-- **C2 (amended)** — Every invocation that finds a service renders
exactly **three** named output units: `client.ts` and `api.ts` from
their named templates against the one shared view model (`api.ts` with
the `rpc` sub-template under its fixed key), and `index.ts` from the
index template against the empty view model. -/
theorem render_pipeline_units (env : Env) (files : List DescFile)
    (svc : DescService) (rest : List DescService)
    (h : files.flatMap (fun f => f.services) = svc :: rest) :
    generateTs env files =
      [{ fileName := "client.ts", template := TemplateId.client,
         viewData := some (processService env svc
           ((jsReplaceEmpty svc.fileName ".proto") ++ "_pb")
           ((jsReplaceEmpty svc.fileName ".proto") ++ "-" ++ svc.name ++ "_connectquery")),
         partials := [] },
       { fileName := "api.ts", template := TemplateId.api,
         viewData := some (processService env svc
           ((jsReplaceEmpty svc.fileName ".proto") ++ "_pb")
           ((jsReplaceEmpty svc.fileName ".proto") ++ "-" ++ svc.name ++ "_connectquery")),
         partials := [("rpc", TemplateId.rpc)] },
       { fileName := "index.ts", template := TemplateId.index,
         viewData := none, partials := [] }] := by
  unfold generateTs
  rw [h]
  rfl

/-- Witness for the amended C2 on the concrete one-service schema. -/
theorem render_pipeline_units_witness :
    generateTs envTickets [fileTickets] =
      [{ fileName := "client.ts", template := TemplateId.client,
         viewData := some (processService envTickets svcTickets
           "tickets_pb" "tickets-TicketService_connectquery"),
         partials := [] },
       { fileName := "api.ts", template := TemplateId.api,
         viewData := some (processService envTickets svcTickets
           "tickets_pb" "tickets-TicketService_connectquery"),
         partials := [("rpc", TemplateId.rpc)] },
       { fileName := "index.ts", template := TemplateId.index,
         viewData := none, partials := [] }] :=
  render_pipeline_units envTickets [fileTickets] svcTickets [] (by decide)

/-- **C5** — With no service anywhere in the input files the generator
emits nothing and succeeds (returns the empty output list, no error
path exists); with at least one service, the output is identical to
what the first service alone would produce — later services contribute
no records and no output. -/
theorem first_service_only (env : Env) (files : List DescFile) :
    (files.flatMap (fun f => f.services) = [] → generateTs env files = []) ∧
    (∀ svc rest, files.flatMap (fun f => f.services) = svc :: rest →
      generateTs env files = generateTs env [{ name := svc.fileName, services := [svc] }]) := by
  constructor
  · intro h
    unfold generateTs
    rw [h]
    rfl
  · intro svc rest h
    unfold generateTs
    rw [h]
    rfl

/-- Witness for C5: a two-file, two-service schema produces exactly the
first service's output, and an empty schema produces nothing. -/
theorem first_service_only_witness :
    generateTs envTickets [fileTickets, fileSecond] =
      generateTs envTickets [{ name := "tickets.proto", services := [svcTickets] }] ∧
    generateTs envTickets [] = [] :=
  ⟨(first_service_only envTickets [fileTickets, fileSecond]).2 svcTickets [svcSecond]
      (by decide),
   (first_service_only envTickets []).1 rfl⟩

end ConnectVue
